import Mathlib

/-!
Verification development for the budget-aware meal-planner core
(`src/meal_planner.py`).  The Python functions are shallowly embedded as
executable Lean functions over `List Char` / `String`.

Modelling conventions:
* Money is represented exactly, in integer cents (`Nat`).  Every price the
  code can parse has the form `d+.dd`, and the budget regex captures an
  integer number of dollars, so all arithmetic in the program is exact on
  cents; Python-float rounding is abstracted away.
* Python `re` scanning is embedded directly: each regex used by the source
  is compiled by hand into a matcher that tries to match at one position,
  plus a left-to-right scanner (`scanFirst` for `re.search`, and dedicated
  scanners for `re.sub` / `re.findall`).  For each regex the greedy
  quantifiers are followed by mandatory distinct characters, so the
  backtracking-free maximal-munch translation is exact.
* `\s` and `str.strip()` are modelled on the ASCII whitespace set; the
  IGNORECASE flag is modelled with ASCII `Char.toLower`.
* The asynchronous capabilities are modelled as oracles: plan generation as
  a response stream indexed by the (sequential) call number, price lookup
  as a function from query text to response text.  `asyncio.gather`
  preserves argument order, so the fanout is the order-preserving `map`.
* Functions whose recursion consumes a computed suffix are written with an
  explicit fuel argument (initialised to the input length, which every
  actual run stays strictly under); this keeps them kernel-reducible.
-/

set_option maxRecDepth 40000

namespace MealPlanner

/-- Python `\s` on the ASCII range (also the `str.strip()` character set). -/
def isWs (c : Char) : Bool :=
  c == ' ' || c == '\t' || c == '\n' || c == '\r' || c == '\x0B' || c == '\x0C'

/-- Characters matched by the `[\r\n]` class. -/
def isNL (c : Char) : Bool := c == '\r' || c == '\n'

/-- Numeric value of a list of decimal digit characters. -/
def digitsVal (ds : List Char) : Nat := ds.foldl (fun a c => 10 * a + (c.toNat - 48)) 0

/-- `re.search` position scan: return the result of the first position
(left to right) at which the single-position matcher `m` succeeds. -/
def scanFirst {α : Type} (m : List Char → Option α) : List Char → Option α
  | [] => none
  | c :: cs =>
    match m (c :: cs) with
    | some a => some a
    | none => scanFirst m cs

/-- A dynamically typed value, as far as `_parse_price` inspects one:
`isinstance(text, str)` distinguishes strings from everything else. -/
inductive PyVal where
  | str (s : String)
  | int (n : Int)
  | other
deriving DecidableEq

/-- One-position matcher for `\$?(\d+\.\d{2})`: optional dollar sign, a
maximal nonempty digit run, a dot, then two digits.  Returns the captured
value in cents. -/
def matchPriceCore (l1 : List Char) : Option Nat :=
  let ds := l1.takeWhile Char.isDigit
  if ds = [] then none
  else
    match l1.dropWhile Char.isDigit with
    | '.' :: d1 :: d2 :: _ =>
      if d1.isDigit && d2.isDigit then
        some (digitsVal ds * 100 + (d1.toNat - 48) * 10 + (d2.toNat - 48))
      else none
    | _ => none

def matchPrice (l : List Char) : Option Nat :=
  matchPriceCore (if l.head? = some '$' then l.tail else l)

/-- `_parse_price` from the source: extract a float price from a string
(in cents here); non-string input and no-match both give 0. -/
def _parse_price : PyVal → Nat
  | .str s => (scanFirst matchPrice s.data).getD 0
  | _ => 0

/-- One-position matcher for `\s*\([^)]*\)` (the `re.sub` pattern of
`_extract_item_name`): maximal whitespace, `(`, everything up to the first
`)`, that `)`.  Returns the remainder after the match. -/
def matchSeg (l : List Char) : Option (List Char) :=
  match l.dropWhile isWs with
  | '(' :: r =>
    match r.dropWhile (· ≠ ')') with
    | ')' :: r2 => some r2
    | _ => none
  | _ => none

/-- Fueled global substitution `re.sub(r'\s*\([^)]*\)', '', ·)`: scan left
to right, deleting each match and continuing after it.  Each step consumes
at least one character, so fuel = input length never runs out. -/
def reSubParenF : Nat → List Char → List Char
  | 0, l => l
  | _ + 1, [] => []
  | fuel + 1, c :: cs =>
    match matchSeg (c :: cs) with
    | some r2 => reSubParenF fuel r2
    | none => c :: reSubParenF fuel cs

/-- The substitution with its canonical fuel. -/
def reSub (l : List Char) : List Char := reSubParenF l.length l

/-- Python `str.strip()` on a character list. -/
def trimList (l : List Char) : List Char :=
  ((l.dropWhile isWs).reverse.dropWhile isWs).reverse

/-- `_extract_item_name` from the source: remove every `\s*\([^)]*\)`
segment, then strip surrounding whitespace. -/
def _extract_item_name (s : String) : String := ⟨trimList (reSub s.data)⟩

/-- The literal `"Budget: "` of the budget regex. -/
def budgetLit : List Char := "Budget: ".data

/-- One-position matcher for `Budget: \$?(\d+)`: the literal, an optional
dollar sign, and a maximal nonempty digit run (value in whole dollars). -/
def matchBudget (l : List Char) : Option Nat :=
  if l.take 8 = budgetLit then
    let r := l.drop 8
    let r1 := if r.head? = some '$' then r.tail else r
    let ds := r1.takeWhile Char.isDigit
    if ds = [] then none else some (digitsVal ds)
  else none

/-- Budget (in cents) used by the orchestrator: first `Budget: \$?(\d+)`
match in the request text, defaulting to 100.0 dollars. -/
def parseBudget (s : String) : Nat :=
  match scanFirst matchBudget s.data with
  | some n => n * 100
  | none => 10000

/-- The lower-case grocery-header literal (12 characters). -/
def GLlit : List Char := "grocery list".data

/-- Fueled parser for the item block `(?:- .+\n?)+`: greedily consume
lines of the form `- ` + nonempty maximal `\n`-free run + optional `\n`.
Returns (consumed block, rest).  Each step consumes at least three
characters, so fuel = input length never runs out. -/
def itemsRunF : Nat → List Char → List Char × List Char
  | 0, l => ([], l)
  | fuel + 1, l =>
    match l with
    | '-' :: ' ' :: d :: tl =>
      if d = '\n' then ([], l)
      else
        let content := d :: tl.takeWhile (· ≠ '\n')
        match tl.dropWhile (· ≠ '\n') with
        | '\n' :: a2 =>
          let gr := itemsRunF fuel a2
          ('-' :: ' ' :: content ++ '\n' :: gr.1, gr.2)
        | after => ('-' :: ' ' :: content, after)
    | _ => ([], l)

/-- One-position matcher for the grocery-list regex
`#+\s*Grocery List:?[\r\n]+((?:- .+\n?)+)` with IGNORECASE:
returns (captured group 1, remainder after the whole match). -/
def matchGrocery (l : List Char) : Option (List Char × List Char) :=
  let hs := l.takeWhile (· = '#')
  if hs = [] then none
  else
    let r2 := (l.dropWhile (· = '#')).dropWhile isWs
    if (r2.take 12).map Char.toLower = GLlit then
      let r3 := r2.drop 12
      let r4 := if r3.head? = some ':' then r3.tail else r3
      if r4.takeWhile isNL = [] then none
      else
        let r5 := r4.dropWhile isNL
        let p := itemsRunF r5.length r5
        if p.1 = [] then none else some p
    else none

/-- Fueled `re.findall(r"- ([^\n]+)", ·)`: all non-overlapping matches,
scanning left to right, each capture being the maximal `\n`-free run after
a `"- "`. -/
def findallItemsF : Nat → List Char → List (List Char)
  | 0, _ => []
  | fuel + 1, l =>
    match l with
    | '-' :: ' ' :: d :: tl =>
      if d = '\n' then findallItemsF fuel (' ' :: d :: tl)
      else (d :: tl.takeWhile (· ≠ '\n')) :: findallItemsF fuel (tl.dropWhile (· ≠ '\n'))
    | _ :: tl => findallItemsF fuel tl
    | [] => []

/-- Grocery-list extraction as the orchestrator performs it: `re.search`
for the block, then `re.findall` of the items inside group 1. -/
def extractGrocery (s : String) : Option (List String) :=
  (scanFirst matchGrocery s.data).map fun p =>
    (findallItemsF p.1.length p.1).map fun cs => ⟨cs⟩

/-- Fueled global substitution `re.sub(pattern, "", mealplan_text)` for
the grocery-block pattern: delete every non-overlapping match, scanning
left to right. -/
def removeBlocksF : Nat → List Char → List Char
  | 0, l => l
  | _ + 1, [] => []
  | fuel + 1, c :: cs =>
    match matchGrocery (c :: cs) with
    | some p => removeBlocksF fuel p.2
    | none => c :: removeBlocksF fuel cs

/-- `final_report_text`: the plan text with every grocery-block match
removed and surrounding whitespace stripped. -/
def narrativeOf (s : String) : String :=
  ⟨trimList (removeBlocksF s.data.length s.data)⟩

/-- The query template used for both the full and the fallback lookup. -/
def priceQuery (item : String) : String :=
  "Price of " ++ item ++ " at Walmart in Watertown, Connecticut"

/-- `get_price` from the source, instrumented with the per-item trace of
issued queries: full lookup; if the extracted price is exactly 0 and the
normalized name differs from the raw item text, one fallback lookup whose
extracted price replaces the result. -/
def get_price (lookup : String → String) (item_text : String) : Nat × List String :=
  let query_full := priceQuery item_text
  let price := _parse_price (.str (lookup query_full))
  if price = 0 then
    let item_name_only := _extract_item_name item_text
    if item_name_only ≠ item_text then
      let query_fallback := priceQuery item_name_only
      (_parse_price (.str (lookup query_fallback)), [query_full, query_fallback])
    else (price, [query_full])
  else (price, [query_full])

/-- `prices_found = await asyncio.gather(*[get_price(item) for item in items])`:
order-preserving fanout. -/
def pricingFanout (lookup : String → String) (items : List String) : List Nat :=
  items.map fun it => (get_price lookup it).1

/-- `total_cost = sum(prices_found)`. -/
def totalCost (lookup : String → String) (items : List String) : Nat :=
  (pricingFanout lookup items).sum

def max_retries : Nat := 3

/-- `${c:.2f}` for an exact amount of cents. -/
def fmtMoney (c : Nat) : String :=
  toString (c / 100) ++ "." ++
    (if c % 100 < 10 then "0" ++ toString (c % 100) else toString (c % 100))

/-- `priced_list_text`: one `- item: $price` line per (item, price) pair. -/
def pricedListText (items : List String) (prices : List Nat) : String :=
  String.intercalate "\n"
    (List.zipWith (fun it p => "- " ++ it ++ ": $" ++ fmtMoney p) items prices)

/-- The ACCEPTED report: narrative, separator, priced-list section whose
header shows the total cost. -/
def acceptedReport (narr : String) (total : Nat) (plist : String) : String :=
  narr ++ "\n\n---\n\n## 🛒 Priced Grocery List (Total: $" ++ fmtMoney total ++ ")\n\n" ++ plist

/-- The EXHAUSTED best-effort report of the final attempt. -/
def exhaustedReport (budget total : Nat) (narr plist : String) : String :=
  "⚠️ **Failed to create a plan within the $" ++ fmtMoney budget ++ " budget after " ++
    toString max_retries ++ " attempts.**\n" ++
  "The cheapest plan generated had a cost of $" ++ fmtMoney total ++ ".\n\n" ++
  "Here is the final meal plan and its priced list:\n" ++ narr ++ "\n\n" ++
  "## 🛒 Priced Grocery List (Total: $" ++ fmtMoney total ++ ")\n\n" ++ plist

/-- The extraction-failure report appended after the final attempt. -/
def extractionFailureReport (planText : String) : String :=
  planText ++ "\n\n⚠️ **Error: Could not extract a grocery list to check prices after several attempts.**"

/-- The corrective prompt used when no grocery list was found. -/
def correctivePrompt (u : String) : String :=
  "Your previous response was not formatted correctly. Please try again, ensuring the grocery list starts with '### Grocery List' and that all items have quantities. Original request: " ++ u

/-- The revision prompt used when the plan was over budget. -/
def revisionPrompt (total : Nat) (plist : String) (u : String) : String :=
  "Your last plan was too expensive at $" ++ fmtMoney total ++ ". The grocery list was:\n" ++
    plist ++ "\n" ++
  "Please generate a NEW, cheaper meal plan. Remember to follow all rules about meal repetition and item limits. Original request was: " ++ u

/-- The retry loop of `orchestrator_tool`.  `plans` is the plan-generation
capability as a response stream indexed by call number; the second
component of the result counts plan-generation calls.  `fuel` is the
number of remaining loop iterations (structurally decreasing; the source
loop runs `attempt` from 0 with `fuel = max_retries - attempt`, so the
fuel-exhausted branch is unreachable). -/
def orchGo (plans : Nat → String) (lookup : String → String) (user_input : String)
    (budget : Nat) : Nat → Nat → String → String × Nat
  | _, 0, _ => ("", 0)
  | attempt, fuel + 1, _current_prompt =>
    let mealplan_text := plans attempt
    match extractGrocery mealplan_text with
    | none =>
      if attempt < max_retries - 1 then
        let r := orchGo plans lookup user_input budget (attempt + 1) fuel
          (correctivePrompt user_input)
        (r.1, r.2 + 1)
      else (extractionFailureReport mealplan_text, 1)
    | some items =>
      let prices := pricingFanout lookup items
      let total_cost := prices.sum
      let plist := pricedListText items prices
      let narr := narrativeOf mealplan_text
      if total_cost ≤ budget then (acceptedReport narr total_cost plist, 1)
      else if attempt < max_retries - 1 then
        let r := orchGo plans lookup user_input budget (attempt + 1) fuel
          (revisionPrompt total_cost plist user_input)
        (r.1, r.2 + 1)
      else (exhaustedReport budget total_cost narr plist, 1)

/-- `orchestrator_tool` from the source: parse the budget, then run the
retry loop from attempt 0 with the initial prompt. -/
def orchestrator_tool (plans : Nat → String) (lookup : String → String)
    (user_input : String) : String × Nat :=
  orchGo plans lookup user_input (parseBudget user_input) 0 max_retries
    ("User's request: " ++ user_input ++ ".")

/-! Declarative pattern predicates, used to state what the regexes mean. -/

/-- Right-strip of Python whitespace. -/
def rtrimWs (l : List Char) : List Char := (l.reverse.dropWhile isWs).reverse

/-- The shape of the captured block of `(?:- .+\n?)+`: one or more lines,
each a hyphen, a space and a nonempty newline-free content run, every line
terminated by a newline except possibly the last. -/
inductive ItemLines : List Char → Prop
  | last (c : List Char) (h1 : c ≠ []) (h2 : '\n' ∉ c) : ItemLines ('-' :: ' ' :: c)
  | lastNL (c : List Char) (h1 : c ≠ []) (h2 : '\n' ∉ c) : ItemLines ('-' :: ' ' :: c ++ ['\n'])
  | cons (c rest : List Char) (h1 : c ≠ []) (h2 : '\n' ∉ c) (h : ItemLines rest) :
      ItemLines ('-' :: ' ' :: c ++ '\n' :: rest)

/-- A grocery-block match starts here: a nonempty `#` run, whitespace, the
words `Grocery List` up to ASCII case, an optional colon, a nonempty run of
line breaks, then hyphen-itemised lines. -/
def ShapeAt (l : List Char) : Prop :=
  ∃ hs ws gl co nls bs rest : List Char,
    l = hs ++ (ws ++ (gl ++ (co ++ (nls ++ (bs ++ rest))))) ∧
    hs ≠ [] ∧ (∀ c ∈ hs, c = '#') ∧
    (∀ c ∈ ws, isWs c = true) ∧
    gl.map Char.toLower = GLlit ∧
    (co = [] ∨ co = [':']) ∧
    nls ≠ [] ∧ (∀ c ∈ nls, isNL c = true) ∧
    ItemLines bs

/-- A price-pattern match of value `v` (in cents) starts here: an optional
dollar sign, a nonempty digit run, a dot and two digits. -/
def PriceShapeAt (l : List Char) (v : Nat) : Prop :=
  ∃ (dol ds : List Char) (d1 d2 : Char) (rest : List Char),
    l = dol ++ (ds ++ ('.' :: d1 :: d2 :: rest)) ∧
    (dol = [] ∨ dol = ['$']) ∧ ds ≠ [] ∧ (∀ c ∈ ds, c.isDigit = true) ∧
    d1.isDigit = true ∧ d2.isDigit = true ∧
    v = digitsVal ds * 100 + (d1.toNat - 48) * 10 + (d2.toNat - 48)

/-- A budget-pattern match of value `v` (in whole dollars) starts here:
the literal `Budget: `, an optional dollar sign, then a maximal nonempty
digit run. -/
def BudgetShapeAt (l : List Char) (v : Nat) : Prop :=
  ∃ (dol ds rest : List Char),
    l = budgetLit ++ (dol ++ (ds ++ rest)) ∧
    (dol = [] ∨ dol = ['$']) ∧ ds ≠ [] ∧ (∀ c ∈ ds, c.isDigit = true) ∧
    (∀ d, rest.head? = some d → d.isDigit = false) ∧
    v = digitsVal ds

/-- No `(` is followed (anywhere later) by a `)`; such a list can contain
no match of the normalizer pattern. -/
def PairFree (l : List Char) : Prop := ¬ List.Sublist ['(', ')'] l

/-- A canonical item block: each item `x` rendered as the line `- x` with
a terminating newline. -/
def linesOf : List (List Char) → List Char
  | [] => []
  | x :: xs => '-' :: ' ' :: (x ++ '\n' :: linesOf xs)

/-! Concrete scenario data used by the worked-example claims. -/

def plansC1 : Nat → String := fun n =>
  if n = 0 then "P1\n### Grocery List\n- A\n" else "P2\n### Grocery List\n- B\n"

def lookupC1 : String → String := fun q =>
  if q = "Price of A at Walmart in Watertown, Connecticut" then "$25.00"
  else if q = "Price of B at Walmart in Watertown, Connecticut" then "$18.00"
  else ""

def inputC1 : String := "Plan meals. Budget: $20"

def plansC2 : Nat → String := fun n =>
  if n = 0 then "Q1\n### Grocery List\n- C\n"
  else if n = 1 then "Q2\n### Grocery List\n- D\n"
  else "Q3\n### Grocery List\n- E\n"

def lookupC2 : String → String := fun q =>
  if q = "Price of C at Walmart in Watertown, Connecticut" then "$30.00"
  else if q = "Price of D at Walmart in Watertown, Connecticut" then "$28.00"
  else if q = "Price of E at Walmart in Watertown, Connecticut" then "$27.00"
  else ""

def inputC2 : String := "Budget: $10"

/-- The stub of the pricing worked example: `$3.50` for the full Milk
query, `no data` for the (single possible) Rice query, `$1.20` for
anything else (in particular for what a fallback query would return). -/
def stubC4 : String → String := fun q =>
  if q = "Price of Milk (1 gallon) at Walmart in Watertown, Connecticut" then "$3.50"
  else if q = "Price of Rice at Walmart in Watertown, Connecticut" then "no data"
  else "$1.20"

/-- A stub for an item whose normalized name differs from its raw text,
so that the fallback branch actually runs. -/
def stubC4b : String → String := fun q =>
  if q = "Price of Milk (1 gallon) at Walmart in Watertown, Connecticut" then "$3.50"
  else if q = "Price of Rice (2 lb) at Walmart in Watertown, Connecticut" then "no data"
  else if q = "Price of Rice at Walmart in Watertown, Connecticut" then "$1.20"
  else ""

/-- A plan text on which block removal splices the surrounding text into a
fresh grocery block. -/
def tC6 : String := "### Gro### Grocery List\n- a\ncery List\n- b\n"

/-! ### Generic helper lemmas -/

theorem ne_of_pred_true_false {p : Char → Bool} {c x : Char}
    (h1 : p c = true) (h2 : p x = false) : c ≠ x := by
  intro he
  subst he
  rw [h1] at h2
  cases h2

theorem dropWhile_head_false {α : Type} {p : α → Bool} :
    ∀ {l : List α} {c : α} {cs : List α}, l.dropWhile p = c :: cs → p c = false := by
  intro l
  induction l with
  | nil => intro c cs h; cases h
  | cons a t ih =>
    intro c cs h
    rw [List.dropWhile_cons] at h
    split at h
    · exact ih h
    · next hpa =>
      injection h with h1 _
      subst h1
      exact Bool.eq_false_iff.mpr hpa

theorem scanFirst_eq_some_iff {α : Type} {m : List Char → Option α} (h0 : m [] = none)
    {l : List Char} {a : α} :
    scanFirst m l = some a ↔
      ∃ i, m (l.drop i) = some a ∧ ∀ j, j < i → m (l.drop j) = none := by
  induction l with
  | nil =>
    simp only [scanFirst, List.drop_nil, h0]
    constructor
    · intro h; cases h
    · rintro ⟨i, hi, -⟩; cases hi
  | cons c cs ih =>
    cases hm : m (c :: cs) with
    | some b =>
      simp only [scanFirst, hm]
      constructor
      · intro h
        exact ⟨0, by simpa [List.drop_zero] using hm.trans h, by omega⟩
      · rintro ⟨i, hi, hj⟩
        cases i with
        | zero => rw [List.drop_zero] at hi; rw [← hm, hi]
        | succ i' =>
          have := hj 0 (by omega)
          rw [List.drop_zero, hm] at this
          cases this
    | none =>
      simp only [scanFirst, hm]
      rw [ih]
      constructor
      · rintro ⟨i, hi, hj⟩
        refine ⟨i + 1, by simpa using hi, ?_⟩
        intro j hjlt
        cases j with
        | zero => simpa using hm
        | succ j' => simpa using hj j' (by omega)
      · rintro ⟨i, hi, hj⟩
        cases i with
        | zero => rw [List.drop_zero, hm] at hi; cases hi
        | succ i' =>
          refine ⟨i', by simpa using hi, ?_⟩
          intro j hjlt
          simpa using hj (j + 1) (by omega)

theorem scanFirst_eq_none_iff {α : Type} {m : List Char → Option α} (h0 : m [] = none)
    {l : List Char} :
    scanFirst m l = none ↔ ∀ i, m (l.drop i) = none := by
  induction l with
  | nil => simp [scanFirst, List.drop_nil, h0]
  | cons c cs ih =>
    cases hm : m (c :: cs) with
    | some b =>
      simp only [scanFirst, hm]
      constructor
      · intro h; cases h
      · intro h
        have := h 0
        rw [List.drop_zero, hm] at this
        cases this
    | none =>
      simp only [scanFirst, hm]
      rw [ih]
      constructor
      · intro h i
        cases i with
        | zero => simpa using hm
        | succ i' => simpa using h i'
      · intro h i
        simpa using h (i + 1)

/-! ### C7: the price extractor -/

theorem matchPriceCore_some {l1 : List Char} {v : Nat} (h : matchPriceCore l1 = some v) :
    ∃ (ds : List Char) (d1 d2 : Char) (rest : List Char),
      l1 = ds ++ '.' :: d1 :: d2 :: rest ∧ l1.takeWhile Char.isDigit = ds ∧
      ds ≠ [] ∧ (∀ c ∈ ds, c.isDigit = true) ∧
      d1.isDigit = true ∧ d2.isDigit = true ∧
      v = digitsVal ds * 100 + (d1.toNat - 48) * 10 + (d2.toNat - 48) := by
  simp only [matchPriceCore] at h
  by_cases hne : l1.takeWhile Char.isDigit = []
  · rw [if_pos hne] at h; cases h
  · rw [if_neg hne] at h
    cases hd : l1.dropWhile Char.isDigit with
    | nil => rw [hd] at h; cases h
    | cons c0 t0 =>
      rw [hd] at h
      split at h
      · next d1 d2 rest heq =>
        split at h
        · next hdd =>
          injection h with hv
          obtain ⟨h1, h2⟩ := Bool.and_eq_true_iff.mp hdd
          refine ⟨l1.takeWhile Char.isDigit, d1, d2, rest, ?_, rfl, hne, ?_, h1, h2, hv.symm⟩
          · conv_lhs => rw [← List.takeWhile_append_dropWhile Char.isDigit l1]
            rw [hd, heq]
          · intro c hc; exact List.mem_takeWhile_imp hc
        · cases h
      · cases h

theorem matchPriceCore_of_shape {ds : List Char} {d1 d2 : Char} {rest : List Char}
    (hne : ds ≠ []) (hds : ∀ c ∈ ds, c.isDigit = true)
    (h1 : d1.isDigit = true) (h2 : d2.isDigit = true) :
    matchPriceCore (ds ++ '.' :: d1 :: d2 :: rest) =
      some (digitsVal ds * 100 + (d1.toNat - 48) * 10 + (d2.toNat - 48)) := by
  have hdot : Char.isDigit '.' = false := by decide
  have ht : (ds ++ '.' :: d1 :: d2 :: rest).takeWhile Char.isDigit = ds := by
    rw [List.takeWhile_append_of_pos hds, List.takeWhile_cons, hdot]
    simp
  have hd : (ds ++ '.' :: d1 :: d2 :: rest).dropWhile Char.isDigit = '.' :: d1 :: d2 :: rest := by
    rw [List.dropWhile_append_of_pos hds, List.dropWhile_cons, hdot]
    simp
  unfold matchPriceCore
  rw [ht, hd]
  simp [hne, h1, h2]

theorem matchPrice_shape_iff (l : List Char) (v : Nat) :
    matchPrice l = some v ↔ PriceShapeAt l v := by
  constructor
  · intro h
    unfold matchPrice at h
    split at h
    · next hh =>
      obtain ⟨t, rfl⟩ : ∃ t, l = '$' :: t := by
        cases l with
        | nil => cases hh
        | cons a t => injection hh with h1; exact ⟨t, by rw [h1]⟩
      simp only [List.tail_cons] at h
      obtain ⟨ds, d1, d2, rest, hteq, -, hne, hds, h1, h2, hv⟩ := matchPriceCore_some h
      refine ⟨['$'], ds, d1, d2, rest, ?_, Or.inr rfl, hne, hds, h1, h2, hv⟩
      rw [hteq]; rfl
    · next hh =>
      obtain ⟨ds, d1, d2, rest, hteq, -, hne, hds, h1, h2, hv⟩ := matchPriceCore_some h
      refine ⟨[], ds, d1, d2, rest, ?_, Or.inl rfl, hne, hds, h1, h2, hv⟩
      simpa using hteq
  · rintro ⟨dol, ds, d1, d2, rest, rfl, hdol, hne, hds, h1, h2, rfl⟩
    obtain ⟨e, ds', rfl⟩ := List.exists_cons_of_ne_nil hne
    have he : e.isDigit = true := hds e (List.mem_cons_self e ds')
    have hed : e ≠ '$' := ne_of_pred_true_false he (by decide)
    rcases hdol with rfl | rfl
    · unfold matchPrice
      rw [List.nil_append, if_neg (by simp [hed])]
      exact matchPriceCore_of_shape hne hds h1 h2
    · unfold matchPrice
      rw [List.cons_append, if_pos (by simp)]
      exact matchPriceCore_of_shape hne hds h1 h2

theorem matchPrice_nil : matchPrice [] = none := by decide

/-- C7: for every input, if it is a string containing a substring matching
an optional leading currency symbol, digits, a decimal point and exactly
two digits, `_parse_price` returns the value of the first (leftmost) such
substring; a string with no such substring gives 0.0, and a non-string
input gives 0.0 (the function is total, so it never raises).  Prices are
in exact cents, so 4.99 is the value 499. -/
theorem price_extractor_spec :
    (∀ (s : String) (v i : Nat),
        matchPrice (s.data.drop i) = some v →
        (∀ j, j < i → matchPrice (s.data.drop j) = none) →
        _parse_price (.str s) = v)
    ∧ (∀ s : String, (∀ i, matchPrice (s.data.drop i) = none) → _parse_price (.str s) = 0)
    ∧ (∀ (l : List Char) (v : Nat), matchPrice l = some v ↔ PriceShapeAt l v)
    ∧ (∀ n : Int, _parse_price (.int n) = 0)
    ∧ _parse_price .other = 0
    ∧ _parse_price (.str "$4.99 each") = 499
    ∧ _parse_price (.str "no price here") = 0
    ∧ _parse_price (.int 42) = 0 := by
  refine ⟨?_, ?_, matchPrice_shape_iff, fun n => rfl, rfl, by decide, by decide, rfl⟩
  · intro s v i hi hj
    have hs : scanFirst matchPrice s.data = some v :=
      (scanFirst_eq_some_iff matchPrice_nil).mpr ⟨i, hi, hj⟩
    simp [_parse_price, hs]
  · intro s h
    have hs : scanFirst matchPrice s.data = none :=
      (scanFirst_eq_none_iff matchPrice_nil).mpr h
    simp [_parse_price, hs]

/-- Witness for C7: the first-match clause applied at the concrete input
`"$4.99 each"` with the match at position 0. -/
theorem price_extractor_spec_witness : _parse_price (.str "$4.99 each") = 499 :=
  price_extractor_spec.1 "$4.99 each" 499 0 (by decide) (fun j hj => absurd hj (by omega))

/-! ### C9: budget parsing -/

theorem dropWhile_headq_false {α : Type} {p : α → Bool} {l : List α} :
    ∀ d, (l.dropWhile p).head? = some d → p d = false := by
  intro d hd
  cases hdw : l.dropWhile p with
  | nil => rw [hdw] at hd; cases hd
  | cons a t =>
    rw [hdw] at hd
    injection hd with h1
    subst h1
    exact dropWhile_head_false hdw

theorem matchBudget_nil : matchBudget [] = none := by decide

theorem matchBudget_append (r : List Char) :
    matchBudget (budgetLit ++ r) =
      (if ((if r.head? = some '$' then r.tail else r).takeWhile Char.isDigit) = [] then none
       else some (digitsVal ((if r.head? = some '$' then r.tail else r).takeWhile Char.isDigit))) := by
  have hlit : budgetLit.length = 8 := by decide
  simp only [matchBudget]
  rw [List.take_left' hlit, List.drop_left' hlit, if_pos rfl]

theorem matchBudget_shape_iff (l : List Char) (v : Nat) :
    matchBudget l = some v ↔ BudgetShapeAt l v := by
  constructor
  · intro h
    simp only [matchBudget] at h
    by_cases htake : l.take 8 = budgetLit
    swap
    · rw [if_neg htake] at h; cases h
    rw [if_pos htake] at h
    have hl : l = budgetLit ++ l.drop 8 := by
      conv_lhs => rw [← List.take_append_drop 8 l]
      rw [htake]
    by_cases hdol : (l.drop 8).head? = some '$'
    · rw [if_pos hdol] at h
      obtain ⟨t, hdt⟩ : ∃ t, l.drop 8 = '$' :: t := by
        cases hd8 : (l.drop 8) with
        | nil => rw [hd8] at hdol; cases hdol
        | cons a t => rw [hd8] at hdol; injection hdol with h1; exact ⟨t, by rw [h1]⟩
      rw [hdt, List.tail_cons] at h
      by_cases hne : t.takeWhile Char.isDigit = []
      · rw [if_pos hne] at h; cases h
      · rw [if_neg hne] at h
        injection h with hv
        refine ⟨['$'], t.takeWhile Char.isDigit, t.dropWhile Char.isDigit, ?_, Or.inr rfl, hne,
          fun c hc => List.mem_takeWhile_imp hc, fun d hd => dropWhile_headq_false d hd, hv.symm⟩
        rw [List.takeWhile_append_dropWhile]
        simp only [List.cons_append, List.nil_append]
        rw [← hdt]
        exact hl
    · rw [if_neg hdol] at h
      by_cases hne : (l.drop 8).takeWhile Char.isDigit = []
      · rw [if_pos hne] at h; cases h
      · rw [if_neg hne] at h
        injection h with hv
        refine ⟨[], (l.drop 8).takeWhile Char.isDigit, (l.drop 8).dropWhile Char.isDigit, ?_,
          Or.inl rfl, hne, fun c hc => List.mem_takeWhile_imp hc,
          fun d hd => dropWhile_headq_false d hd, hv.symm⟩
        simp only [List.nil_append]
        rw [List.takeWhile_append_dropWhile]
        exact hl
  · rintro ⟨dol, ds, rest, rfl, hdol, hne, hds, hrest, rfl⟩
    obtain ⟨e, ds', rfl⟩ := List.exists_cons_of_ne_nil hne
    have he : e.isDigit = true := hds e (List.mem_cons_self e ds')
    have htw : (e :: (ds' ++ rest)).takeWhile Char.isDigit = e :: ds' := by
      have h1 : ((e :: ds') ++ rest).takeWhile Char.isDigit = (e :: ds') ++ rest.takeWhile Char.isDigit :=
        List.takeWhile_append_of_pos hds
      have h2 : rest.takeWhile Char.isDigit = [] := by
        cases hr : rest with
        | nil => simp
        | cons d r' =>
          have hd : d.isDigit = false := hrest d (by rw [hr]; rfl)
          rw [List.takeWhile_cons, hd]
          simp
      simp only [List.cons_append] at h1
      rw [h1, h2, List.append_nil]
    rcases hdol with rfl | rfl
    · simp only [List.nil_append, List.cons_append]
      rw [matchBudget_append]
      have hed : e ≠ '$' := ne_of_pred_true_false he (by decide)
      have hcond : ¬ ((e :: (ds' ++ rest)).head? = some '$') := by simp [hed]
      rw [if_neg hcond, htw, if_neg (List.cons_ne_nil e ds')]
    · simp only [List.nil_append, List.cons_append]
      rw [matchBudget_append]
      have hcond : ('$' :: e :: (ds' ++ rest)).head? = some '$' := rfl
      rw [if_pos hcond, List.tail_cons, htw, if_neg (List.cons_ne_nil e ds')]

/-- C9: the budget used by the retry loop is parseBudget of the request
text (first conjunct, definitional); parseBudget returns 100 times the
dollar value of the first (leftmost) `Budget: \$?(\d+)` match, and
defaults to 100.00 (10000 cents) when no occurrence exists — a malformed
value is impossible since the pattern captures only digit runs. -/
theorem budget_parsing_spec :
    (∀ (plans : Nat → String) (lookup : String → String) (u : String),
        orchestrator_tool plans lookup u =
          orchGo plans lookup u (parseBudget u) 0 max_retries ("User's request: " ++ u ++ "."))
    ∧ (∀ (u : String) (v i : Nat),
        matchBudget (u.data.drop i) = some v →
        (∀ j, j < i → matchBudget (u.data.drop j) = none) →
        parseBudget u = v * 100)
    ∧ (∀ u : String, (∀ i, matchBudget (u.data.drop i) = none) → parseBudget u = 10000)
    ∧ (∀ (l : List Char) (v : Nat), matchBudget l = some v ↔ BudgetShapeAt l v)
    ∧ parseBudget "Plan meals. Budget: $20" = 2000
    ∧ parseBudget "no budget here" = 10000 := by
  refine ⟨fun _ _ _ => rfl, ?_, ?_, matchBudget_shape_iff, by decide, by decide⟩
  · intro u v i hi hj
    have hs : scanFirst matchBudget u.data = some v :=
      (scanFirst_eq_some_iff matchBudget_nil).mpr ⟨i, hi, hj⟩
    simp [parseBudget, hs]
  · intro u h
    have hs : scanFirst matchBudget u.data = none :=
      (scanFirst_eq_none_iff matchBudget_nil).mpr h
    simp [parseBudget, hs]

/-- Witness for C9: the first-match clause applied at `"Budget: $20"`
with the match at position 0. -/
theorem budget_parsing_spec_witness : parseBudget "Budget: $20" = 20 * 100 :=
  budget_parsing_spec.2.1 "Budget: $20" 20 0 (by decide) (fun j hj => absurd hj (by omega))

/-! ### C3, C4: the pricing fanout -/

/-- C3: for every item list and lookup capability the fanout returns one
price per item, in input order; per item, the first lookup uses the full
raw item text, a fallback lookup with the normalized name is issued
exactly when the first extracted price is 0 and the normalized name
differs from the raw text (its extracted price, possibly again 0, then
becomes the item price); and the total cost is the sum of the final
per-item prices. -/
theorem pricing_fanout_spec :
    ∀ (lookup : String → String) (items : List String),
      (pricingFanout lookup items).length = items.length
      ∧ (∀ i : Nat, (pricingFanout lookup items)[i]? =
          (items[i]?).map fun it => (get_price lookup it).1)
      ∧ totalCost lookup items = (pricingFanout lookup items).sum
      ∧ ∀ it : String,
          ((get_price lookup it).2 = [priceQuery it, priceQuery (_extract_item_name it)]
            ↔ (_parse_price (.str (lookup (priceQuery it))) = 0 ∧ _extract_item_name it ≠ it))
          ∧ ((_parse_price (.str (lookup (priceQuery it))) = 0 ∧ _extract_item_name it ≠ it) →
              (get_price lookup it).1 =
                _parse_price (.str (lookup (priceQuery (_extract_item_name it)))))
          ∧ (¬(_parse_price (.str (lookup (priceQuery it))) = 0 ∧ _extract_item_name it ≠ it) →
              (get_price lookup it).1 = _parse_price (.str (lookup (priceQuery it)))
                ∧ (get_price lookup it).2 = [priceQuery it]) := by
  intro lookup items
  refine ⟨by simp [pricingFanout], fun i => by simp [pricingFanout], rfl, ?_⟩
  intro it
  by_cases hp : _parse_price (.str (lookup (priceQuery it))) = 0
  · by_cases hn : _extract_item_name it ≠ it
    · have hgp : get_price lookup it =
          (_parse_price (.str (lookup (priceQuery (_extract_item_name it)))),
            [priceQuery it, priceQuery (_extract_item_name it)]) := by
        simp only [get_price]
        rw [if_pos hp, if_pos hn]
      rw [hgp]
      exact ⟨⟨fun _ => ⟨hp, hn⟩, fun _ => rfl⟩, fun _ => rfl, fun hc => absurd ⟨hp, hn⟩ hc⟩
    · have hgp : get_price lookup it =
          (_parse_price (.str (lookup (priceQuery it))), [priceQuery it]) := by
        simp only [get_price]
        rw [if_pos hp, if_neg hn]
      rw [hgp]
      refine ⟨⟨?_, ?_⟩, ?_, fun _ => ⟨rfl, rfl⟩⟩
      · intro h
        have := congrArg List.length h
        simp at this
      · rintro ⟨-, hn'⟩
        exact absurd hn' hn
      · rintro ⟨-, hn'⟩
        exact absurd hn' hn
  · have hgp : get_price lookup it =
        (_parse_price (.str (lookup (priceQuery it))), [priceQuery it]) := by
      simp only [get_price]
      rw [if_neg hp]
    rw [hgp]
    refine ⟨⟨?_, ?_⟩, ?_, fun _ => ⟨rfl, rfl⟩⟩
    · intro h
      have := congrArg List.length h
      simp at this
    · rintro ⟨h0, -⟩
      exact absurd h0 hp
    · rintro ⟨h0, -⟩
      exact absurd h0 hp

/-- Witness for C3: the no-fallback clause applied at a stub whose full
lookup already yields a nonzero price. -/
theorem pricing_fanout_spec_witness :
    (get_price (fun _ => "$2.00") "X (1)").1 = _parse_price (.str "$2.00")
      ∧ (get_price (fun _ => "$2.00") "X (1)").2 = [priceQuery "X (1)"] :=
  ((pricing_fanout_spec (fun _ => "$2.00") ["X (1)"]).2.2.2 "X (1)").2.2 (by decide)

/-- C4 counterexample: on the spec's worked example the code issues no
fallback for "Rice" (its normalized name equals the raw text), so the
result is [3.50, 0.0] with total 3.50 — not [3.50, 1.20] with total 4.70
and a second Rice lookup as claimed. -/
theorem pricing_example_counterexample :
    pricingFanout stubC4 ["Milk (1 gallon)", "Rice"] = [350, 0]
    ∧ ¬ (pricingFanout stubC4 ["Milk (1 gallon)", "Rice"] = [350, 120])
    ∧ totalCost stubC4 ["Milk (1 gallon)", "Rice"] = 350
    ∧ (get_price stubC4 "Rice").2 = [priceQuery "Rice"]
    ∧ (get_price stubC4 "Milk (1 gallon)").2 = [priceQuery "Milk (1 gallon)"] := by
  exact ⟨by decide, by decide, by decide, by decide, by decide⟩

/-- C4 amended: with that stub the fanout yields [3.50, 0.0], total 3.50,
and exactly one (full) lookup per item — "Rice" gets no fallback because
its normalized name equals its raw text.  The intended two-lookup
behaviour does occur for an item whose normalized name differs, e.g.
"Rice (2 lb)": full then fallback lookup, in that order, and the fallback
price 1.20 becomes the item price (total 4.70). -/
theorem pricing_example_amended :
    (pricingFanout stubC4 ["Milk (1 gallon)", "Rice"] = [350, 0]
      ∧ totalCost stubC4 ["Milk (1 gallon)", "Rice"] = 350
      ∧ (get_price stubC4 "Rice").2 = [priceQuery "Rice"]
      ∧ (get_price stubC4 "Milk (1 gallon)").2 = [priceQuery "Milk (1 gallon)"])
    ∧ (pricingFanout stubC4b ["Milk (1 gallon)", "Rice (2 lb)"] = [350, 120]
      ∧ totalCost stubC4b ["Milk (1 gallon)", "Rice (2 lb)"] = 470
      ∧ (get_price stubC4b "Rice (2 lb)").2 = [priceQuery "Rice (2 lb)", priceQuery "Rice"]
      ∧ (get_price stubC4b "Milk (1 gallon)").2 = [priceQuery "Milk (1 gallon)"]) := by
  exact ⟨⟨by decide, by decide, by decide, by decide⟩, by decide, by decide, by decide, by decide⟩

/-! ### C1, C2: the budget retry loop -/

theorem orchGo_count (plans : Nat → String) (lookup : String → String) (u : String)
    (budget : Nat) :
    ∀ (fuel attempt : Nat) (prompt : String),
      (orchGo plans lookup u budget attempt fuel prompt).2 ≤ fuel := by
  intro fuel
  induction fuel with
  | zero => intro attempt prompt; simp [orchGo]
  | succ f ih =>
    intro attempt prompt
    cases hx : extractGrocery (plans attempt) with
    | none =>
      simp only [orchGo, hx]
      split
      · exact Nat.succ_le_succ (ih _ _)
      · simp
    | some items =>
      simp only [orchGo, hx]
      split
      · simp
      · split
        · exact Nat.succ_le_succ (ih _ _)
        · simp

/-- C1: whenever an attempt extracts a grocery list whose priced total is
within budget, the loop stops at that attempt (exactly one further
generation call) and returns the report built from the narrative (plan
text with the grocery block removed) followed by the priced-list section
whose header shows the total; in the worked scenario (budget $20, totals
$25 then $18) the loop returns the accepted report with total 18.00 after
exactly 2 plan-generation calls. -/
theorem budget_loop_accepts :
    (∀ (plans : Nat → String) (lookup : String → String) (u : String)
        (budget attempt fuel : Nat) (prompt : String) (items : List String),
        extractGrocery (plans attempt) = some items →
        (pricingFanout lookup items).sum ≤ budget →
        orchGo plans lookup u budget attempt (fuel + 1) prompt =
          (acceptedReport (narrativeOf (plans attempt)) (pricingFanout lookup items).sum
            (pricedListText items (pricingFanout lookup items)), 1))
    ∧ orchestrator_tool plansC1 lookupC1 inputC1 =
        ("P2\n\n---\n\n## 🛒 Priced Grocery List (Total: $18.00)\n\n- B: $18.00", 2) := by
  constructor
  · intro plans lookup u budget attempt fuel prompt items hx hle
    simp only [orchGo, hx]
    rw [if_pos hle]
  · decide

/-- Witness for C1: the acceptance clause applied at the second attempt of
the concrete scenario. -/
theorem budget_loop_accepts_witness :
    orchGo plansC1 lookupC1 inputC1 2000 1 1 "p" =
      (acceptedReport (narrativeOf (plansC1 1)) (pricingFanout lookupC1 ["B"]).sum
        (pricedListText ["B"] (pricingFanout lookupC1 ["B"])), 1) :=
  budget_loop_accepts.1 plansC1 lookupC1 inputC1 2000 1 0 "p" ["B"] (by decide) (by decide)

/-- C2: if all three attempts extract grocery lists whose totals all
exceed the budget, the loop terminates normally at the third attempt
(after exactly 3 generation calls, and the call count never exceeds the
fixed maximum 3) and returns the best-effort report stating the budget was
not met, containing the third attempt's total cost, narrative and priced
list; in the worked scenario (budget $10, totals 30/28/27) the reported
total is 27.00. -/
theorem budget_loop_exhausts :
    (∀ (plans : Nat → String) (lookup : String → String) (u : String)
        (items0 items1 items2 : List String),
        extractGrocery (plans 0) = some items0 →
        extractGrocery (plans 1) = some items1 →
        extractGrocery (plans 2) = some items2 →
        parseBudget u < (pricingFanout lookup items0).sum →
        parseBudget u < (pricingFanout lookup items1).sum →
        parseBudget u < (pricingFanout lookup items2).sum →
        orchestrator_tool plans lookup u =
          (exhaustedReport (parseBudget u) (pricingFanout lookup items2).sum
            (narrativeOf (plans 2)) (pricedListText items2 (pricingFanout lookup items2)), 3))
    ∧ (∀ plans lookup u, (orchestrator_tool plans lookup u).2 ≤ max_retries)
    ∧ orchestrator_tool plansC2 lookupC2 inputC2 =
        ("⚠️ **Failed to create a plan within the $10.00 budget after 3 attempts.**\nThe cheapest plan generated had a cost of $27.00.\n\nHere is the final meal plan and its priced list:\nQ3\n\n## 🛒 Priced Grocery List (Total: $27.00)\n\n- E: $27.00", 3) := by
  refine ⟨?_, fun plans lookup u => orchGo_count plans lookup u _ _ _ _, ?_⟩
  · intro plans lookup u items0 items1 items2 h0 h1 h2 hb0 hb1 hb2
    have hn0 := Nat.not_le.mpr hb0
    have hn1 := Nat.not_le.mpr hb1
    have hn2 := Nat.not_le.mpr hb2
    rw [show orchestrator_tool plans lookup u =
      orchGo plans lookup u (parseBudget u) 0 (2 + 1) ("User's request: " ++ u ++ ".") from rfl]
    simp only [orchGo, h0]
    rw [if_neg hn0, if_pos (by decide : (0:Nat) < max_retries - 1)]
    rw [show (2:Nat) = 1 + 1 from rfl]
    simp only [orchGo, h1]
    rw [if_neg hn1, if_pos (by decide : (1:Nat) < max_retries - 1)]
    rw [show (1:Nat) = 0 + 1 from rfl]
    simp only [orchGo, h2]
    rw [if_neg hn2, if_neg (by decide : ¬ ((2:Nat) < max_retries - 1))]
  · decide

/-- Witness for C2: the exhaustion clause applied at the concrete
three-attempt scenario. -/
theorem budget_loop_exhausts_witness :
    orchestrator_tool plansC2 lookupC2 inputC2 =
      (exhaustedReport (parseBudget inputC2) (pricingFanout lookupC2 ["E"]).sum
        (narrativeOf (plansC2 2)) (pricedListText ["E"] (pricingFanout lookupC2 ["E"])), 3) :=
  budget_loop_exhausts.1 plansC2 lookupC2 inputC2 ["C"] ["D"] ["E"]
    (by decide) (by decide) (by decide) (by decide) (by decide) (by decide)

/-! ### C8, C10: the item-name normalizer -/

theorem matchSeg_some_elim {l r2 : List Char} (h : matchSeg l = some r2) :
    r2 <:+ l ∧ r2.length < l.length ∧ List.Sublist ['(', ')'] l := by
  unfold matchSeg at h
  split at h
  · next r heq =>
    split at h
    · next r2' heq2 =>
      injection h with h2
      subst h2
      have hsuf1 : '(' :: r <:+ l := by rw [← heq]; exact List.dropWhile_suffix isWs
      have hsuf2 : ')' :: r2' <:+ r := by rw [← heq2]; exact List.dropWhile_suffix _
      have hr : r <:+ l := (List.suffix_cons '(' r).trans hsuf1
      refine ⟨((List.suffix_cons ')' r2').trans hsuf2).trans hr, ?_, ?_⟩
      · have a1 := hsuf1.length_le
        have a2 := hsuf2.length_le
        simp only [List.length_cons] at a1 a2
        omega
      · have hmem : ')' ∈ r := hsuf2.sublist.subset (List.mem_cons_self ')' r2')
        have hsub : List.Sublist ['(', ')'] ('(' :: r) :=
          List.cons_sublist_cons.mpr (List.singleton_sublist.mpr hmem)
        exact hsub.trans hsuf1.sublist
    · cases h
  · cases h

theorem matchSeg_none_of_pairFree {l : List Char} (h : PairFree l) : matchSeg l = none := by
  cases hm : matchSeg l with
  | none => rfl
  | some r2 => exact absurd (matchSeg_some_elim hm).2.2 h

theorem pairFree_mono {l1 l2 : List Char} (hsub : List.Sublist l1 l2) (h : PairFree l2) :
    PairFree l1 := fun hp => h (hp.trans hsub)

theorem pairFree_nil : PairFree [] := by
  intro h
  have := List.sublist_nil.mp h
  cases this

theorem reSubParenF_irrel : ∀ (f1 f2 : Nat) (l : List Char),
    l.length ≤ f1 → l.length ≤ f2 → reSubParenF f1 l = reSubParenF f2 l := by
  intro f1
  induction f1 with
  | zero =>
    intro f2 l h1 _
    have hl : l = [] := List.length_eq_zero.mp (Nat.le_zero.mp h1)
    subst hl
    cases f2 <;> rfl
  | succ f ih =>
    intro f2 l h1 h2
    cases l with
    | nil => cases f2 <;> rfl
    | cons c cs =>
      cases f2 with
      | zero =>
        simp only [List.length_cons] at h2
        omega
      | succ f2' =>
        simp only [List.length_cons] at h1 h2
        cases hm : matchSeg (c :: cs) with
        | some r2 =>
          have hlen := (matchSeg_some_elim hm).2.1
          simp only [List.length_cons] at hlen
          simp only [reSubParenF, hm]
          exact ih f2' r2 (by omega) (by omega)
        | none =>
          simp only [reSubParenF, hm]
          rw [ih f2' cs (by omega) (by omega)]

theorem reSub_cons (c : Char) (cs : List Char) :
    reSub (c :: cs) = match matchSeg (c :: cs) with
      | some r2 => reSub r2
      | none => c :: reSub cs := by
  cases hm : matchSeg (c :: cs) with
  | some r2 =>
    have hlen := (matchSeg_some_elim hm).2.1
    simp only [List.length_cons] at hlen
    show reSubParenF (c :: cs).length (c :: cs) = _
    simp only [List.length_cons, reSubParenF, hm]
    exact reSubParenF_irrel _ _ r2 (by omega) le_rfl
  | none =>
    show reSubParenF (c :: cs).length (c :: cs) = _
    simp only [List.length_cons, reSubParenF, hm]
    rfl

theorem reSubParenF_sublist : ∀ (fuel : Nat) (l : List Char),
    List.Sublist (reSubParenF fuel l) l := by
  intro fuel
  induction fuel with
  | zero => intro l; exact List.Sublist.refl l
  | succ f ih =>
    intro l
    cases l with
    | nil => simp [reSubParenF]
    | cons c cs =>
      cases hm : matchSeg (c :: cs) with
      | some r2 =>
        simp only [reSubParenF, hm]
        exact (ih r2).trans (matchSeg_some_elim hm).1.sublist
      | none =>
        simp only [reSubParenF, hm]
        exact List.cons_sublist_cons.mpr (ih cs)

theorem reSub_sublist (l : List Char) : List.Sublist (reSub l) l := reSubParenF_sublist _ _

theorem matchSeg_paren_eq (cs : List Char) :
    matchSeg ('(' :: cs) = match cs.dropWhile (· ≠ ')') with
      | ')' :: r2 => some r2
      | _ => none := by
  have hws : isWs '(' = false := by decide
  have hdw : ('(' :: cs).dropWhile isWs = '(' :: cs := by
    rw [List.dropWhile_cons, hws]
    simp
  unfold matchSeg
  rw [hdw]
  rfl

theorem matchSeg_paren_none {cs : List Char} (h : matchSeg ('(' :: cs) = none) : ')' ∉ cs := by
  rw [matchSeg_paren_eq] at h
  intro hmem
  cases hd : cs.dropWhile (· ≠ ')') with
  | nil =>
    have hall := List.dropWhile_eq_nil_iff.mp hd
    have := hall ')' hmem
    simp at this
  | cons c0 r0 =>
    have hc0 := dropWhile_head_false hd
    have hc0' : c0 = ')' := by simpa using hc0
    subst hc0'
    rw [hd] at h
    exact Option.noConfusion h

theorem reSubParenF_pairFree : ∀ (fuel : Nat) (l : List Char), l.length ≤ fuel →
    PairFree (reSubParenF fuel l) := by
  intro fuel
  induction fuel with
  | zero =>
    intro l h
    have hl : l = [] := List.length_eq_zero.mp (Nat.le_zero.mp h)
    subst hl
    exact pairFree_nil
  | succ f ih =>
    intro l h
    cases l with
    | nil => exact pairFree_nil
    | cons c cs =>
      simp only [List.length_cons] at h
      cases hm : matchSeg (c :: cs) with
      | some r2 =>
        have hlen := (matchSeg_some_elim hm).2.1
        simp only [List.length_cons] at hlen
        simp only [reSubParenF, hm]
        exact ih r2 (by omega)
      | none =>
        simp only [reSubParenF, hm]
        intro hpair
        rcases List.sublist_cons_iff.mp hpair with hsub | ⟨rtl, hreq, hrsub⟩
        · exact ih cs (by omega) hsub
        · injection hreq with hc hrtl
          subst hc
          subst hrtl
          have hmem : ')' ∈ reSubParenF f cs := List.singleton_sublist.mp hrsub
          have hmem' : ')' ∈ cs := (reSubParenF_sublist f cs).subset hmem
          exact matchSeg_paren_none hm hmem'

theorem reSubParenF_of_pairFree : ∀ (fuel : Nat) (l : List Char), PairFree l →
    reSubParenF fuel l = l := by
  intro fuel
  induction fuel with
  | zero => intro l _; rfl
  | succ f ih =>
    intro l hp
    cases l with
    | nil => rfl
    | cons c cs =>
      have hm : matchSeg (c :: cs) = none := matchSeg_none_of_pairFree hp
      simp only [reSubParenF, hm]
      rw [ih cs (pairFree_mono (List.sublist_cons_self c cs) hp)]

theorem reSub_of_pairFree {l : List Char} (h : PairFree l) : reSub l = l :=
  reSubParenF_of_pairFree _ _ h

theorem reSub_pairFree (l : List Char) : PairFree (reSub l) :=
  reSubParenF_pairFree _ _ le_rfl

theorem dropWhile_idem {α : Type} (p : α → Bool) (l : List α) :
    (l.dropWhile p).dropWhile p = l.dropWhile p := by
  cases hd : l.dropWhile p with
  | nil => rfl
  | cons c cs =>
    rw [List.dropWhile_cons, dropWhile_head_false hd]
    simp

theorem trimList_sublist (l : List Char) : List.Sublist (trimList l) l := by
  unfold trimList
  have h1 : List.Sublist ((l.dropWhile isWs).reverse.dropWhile isWs) (l.dropWhile isWs).reverse :=
    (List.dropWhile_suffix isWs).sublist
  have h2 := List.reverse_sublist.mpr h1
  rw [List.reverse_reverse] at h2
  exact h2.trans (List.dropWhile_suffix isWs).sublist

theorem rtrimWs_idem (x : List Char) : rtrimWs (rtrimWs x) = rtrimWs x := by
  unfold rtrimWs
  rw [List.reverse_reverse, dropWhile_idem]

theorem rtrimWs_nonWsHead {D : List Char} (hD : D.dropWhile isWs = D) :
    (rtrimWs D).dropWhile isWs = rtrimWs D := by
  cases hd : D.reverse.dropWhile isWs with
  | nil =>
    unfold rtrimWs
    rw [hd]
    rfl
  | cons c cs =>
    have hsuf : c :: cs <:+ D.reverse := by rw [← hd]; exact List.dropWhile_suffix isWs
    obtain ⟨u, hu⟩ := hsuf
    have hDeq : D = (c :: cs).reverse ++ u.reverse := by
      have hrev := congrArg List.reverse hu
      rw [List.reverse_append, List.reverse_reverse] at hrev
      exact hrev.symm
    have hr : rtrimWs D = (c :: cs).reverse := by unfold rtrimWs; rw [hd]
    rw [hr]
    cases hE : (c :: cs).reverse with
    | nil =>
      have hlenE : (c :: cs).reverse.length = 0 := by rw [hE]; rfl
      simp at hlenE
    | cons e t =>
      have hD2 : D = e :: (t ++ u.reverse) := by rw [hDeq, hE]; rfl
      cases hbe : isWs e with
      | false =>
        rw [List.dropWhile_cons, hbe]
        simp
      | true =>
        exfalso
        rw [hD2, List.dropWhile_cons] at hD
        rw [if_pos hbe] at hD
        have hlen := congrArg List.length hD
        have hle : ((t ++ u.reverse).dropWhile isWs).length ≤ (t ++ u.reverse).length :=
          (List.dropWhile_suffix isWs).length_le
        simp only [List.length_cons] at hlen
        omega

theorem trimList_idem (l : List Char) : trimList (trimList l) = trimList l := by
  show rtrimWs ((rtrimWs (l.dropWhile isWs)).dropWhile isWs) = rtrimWs (l.dropWhile isWs)
  rw [rtrimWs_nonWsHead (dropWhile_idem isWs l), rtrimWs_idem]

theorem rtrimWs_of_allWs {l : List Char} (h : ∀ x ∈ l, isWs x = true) : rtrimWs l = [] := by
  unfold rtrimWs
  have hnil : l.reverse.dropWhile isWs = [] :=
    List.dropWhile_eq_nil_iff.mpr (fun x hx => h x (List.mem_reverse.mp hx))
  rw [hnil]
  rfl

theorem rtrimWs_cons_nonWs {c : Char} {p' : List Char}
    (h : ¬ ∀ x ∈ c :: p', isWs x = true) : rtrimWs (c :: p') = c :: rtrimWs p' := by
  unfold rtrimWs
  rw [List.reverse_cons, List.dropWhile_append]
  by_cases hp : p'.reverse.dropWhile isWs = []
  · have hallp' : ∀ x ∈ p', isWs x = true := fun x hx =>
      List.dropWhile_eq_nil_iff.mp hp x (List.mem_reverse.mpr hx)
    have hc : isWs c = false := by
      cases hbc : isWs c
      · rfl
      · exact absurd (fun x hx => by
          rcases List.mem_cons.mp hx with rfl | hx'
          · exact hbc
          · exact hallp' x hx') h
    rw [hp]
    simp only [List.isEmpty_nil, if_true]
    rw [List.dropWhile_cons, hc]
    simp
  · have hfalse : ¬ ((p'.reverse.dropWhile isWs).isEmpty = true) := by
      simpa [List.isEmpty_iff] using hp
    rw [if_neg hfalse, List.reverse_append]
    rfl

theorem matchSeg_ws_skip {q l : List Char} (hq : ∀ x ∈ q, isWs x = true) :
    matchSeg (q ++ l) = matchSeg l := by
  unfold matchSeg
  rw [List.dropWhile_append_of_pos hq]

theorem matchSeg_allWs {q body rest : List Char} (hq : ∀ x ∈ q, isWs x = true)
    (hb : ')' ∉ body) :
    matchSeg (q ++ '(' :: (body ++ ')' :: rest)) = some rest := by
  have hb' : ∀ a ∈ body, (decide (a ≠ ')')) = true :=
    fun a ha => decide_eq_true (fun he => hb (he ▸ ha))
  have h2 : (body ++ ')' :: rest).dropWhile (· ≠ ')') = ')' :: rest := by
    rw [List.dropWhile_append_of_pos hb', List.dropWhile_cons]
    have hcl : (decide ((')' : Char) ≠ ')')) = false := by decide
    rw [hcl]
    simp
  rw [matchSeg_ws_skip hq, matchSeg_paren_eq, h2]
  rfl

theorem matchSeg_none_head {l : List Char} {d : Char} {t : List Char}
    (hd : l.dropWhile isWs = d :: t) (hne : d ≠ '(') : matchSeg l = none := by
  unfold matchSeg
  rw [hd]
  split
  · next r heq =>
    injection heq with h1 _
    exact absurd h1 hne
  · rfl

theorem reSub_block : ∀ (p body rest : List Char),
    '(' ∉ p → ')' ∉ body →
    reSub (p ++ '(' :: (body ++ ')' :: rest)) = rtrimWs p ++ reSub rest := by
  intro p
  induction p with
  | nil =>
    intro body rest _ hb
    simp only [List.nil_append]
    rw [reSub_cons]
    have hm : matchSeg ('(' :: (body ++ ')' :: rest)) = some rest := by
      have hws : matchSeg (([] : List Char) ++ '(' :: (body ++ ')' :: rest)) = some rest :=
        @matchSeg_allWs [] body rest (by simp) hb
      simpa using hws
    rw [hm]
    rfl
  | cons c p' ih =>
    intro body rest hp hb
    have hp' : '(' ∉ p' := fun hx => hp (List.mem_cons_of_mem c hx)
    by_cases hall : ∀ x ∈ c :: p', isWs x = true
    · have hm : matchSeg ((c :: p') ++ '(' :: (body ++ ')' :: rest)) = some rest :=
        matchSeg_allWs hall hb
      simp only [List.cons_append] at hm ⊢
      rw [reSub_cons, hm, rtrimWs_of_allWs hall]
      rfl
    · have hm : matchSeg ((c :: p') ++ '(' :: (body ++ ')' :: rest)) = none := by
        have hne : (c :: p').dropWhile isWs ≠ [] := by
          intro hnil
          exact hall (List.dropWhile_eq_nil_iff.mp hnil)
        obtain ⟨d, t, hd⟩ : ∃ d t, (c :: p').dropWhile isWs = d :: t := by
          cases hdw : (c :: p').dropWhile isWs with
          | nil => exact absurd hdw hne
          | cons d t => exact ⟨d, t, rfl⟩
        have hdmem : d ∈ c :: p' := by
          have hsuf : d :: t <:+ c :: p' := by rw [← hd]; exact List.dropWhile_suffix isWs
          exact hsuf.sublist.subset (List.mem_cons_self d t)
        have hdne : d ≠ '(' := fun he => hp (he ▸ hdmem)
        have hfull : ((c :: p') ++ '(' :: (body ++ ')' :: rest)).dropWhile isWs
            = d :: (t ++ '(' :: (body ++ ')' :: rest)) := by
          rw [List.dropWhile_append, hd]
          simp
        exact matchSeg_none_head hfull hdne
      simp only [List.cons_append] at hm ⊢
      rw [reSub_cons, hm]
      show c :: reSub (p' ++ '(' :: (body ++ ')' :: rest)) = _
      rw [ih body rest hp' hb, rtrimWs_cons_nonWs hall, List.cons_append]

theorem paren_free_pairFree {l : List Char} (h : '(' ∉ l) : PairFree l := by
  intro hsub
  exact h (hsub.subset (List.mem_cons_self _ _))

/-- C8: the normalizer removes every parenthesized segment together with
the whitespace run preceding it and trims surrounding whitespace; a string
with no parentheses is returned as its trimmed self.  The second conjunct
is the segment-removal law: for a prefix with no `(` and a body with no
`)`, the substitution deletes the segment and the whitespace before it and
continues on the remainder. -/
theorem item_normalizer_spec :
    (∀ s : String, '(' ∉ s.data → ')' ∉ s.data → _extract_item_name s = ⟨trimList s.data⟩)
    ∧ (∀ (p body rest : List Char), '(' ∉ p → ')' ∉ body →
        reSub (p ++ '(' :: (body ++ ')' :: rest)) = rtrimWs p ++ reSub rest)
    ∧ _extract_item_name "Milk (1 gallon)" = "Milk"
    ∧ _extract_item_name "Eggs (dozen) (large)" = "Eggs"
    ∧ _extract_item_name "Bread" = "Bread" := by
  refine ⟨?_, reSub_block, by decide, by decide, by decide⟩
  intro s hparen _
  show (⟨trimList (reSub s.data)⟩ : String) = ⟨trimList s.data⟩
  rw [reSub_of_pairFree (paren_free_pairFree hparen)]

/-- Witness for C8: the segment-removal law applied at `"Ab (x)"`, and the
no-parentheses clause applied at `" Bread "`. -/
theorem item_normalizer_spec_witness :
    reSub ("Ab ".data ++ '(' :: ("x".data ++ ')' :: "".data)) = rtrimWs "Ab ".data ++ reSub "".data
      ∧ _extract_item_name " Bread " = ⟨trimList " Bread ".data⟩ :=
  ⟨item_normalizer_spec.2.1 "Ab ".data "x".data "".data (by decide) (by decide),
   item_normalizer_spec.1 " Bread " (by decide) (by decide)⟩

/-- C10: the normalizer is idempotent: one pass leaves no whitespace at
the ends and no `(` that is still followed by a `)`, so a second pass is
the identity. -/
theorem normalizer_idempotent :
    ∀ s : String, _extract_item_name (_extract_item_name s) = _extract_item_name s := by
  intro s
  show (⟨trimList (reSub (trimList (reSub s.data)))⟩ : String) = ⟨trimList (reSub s.data)⟩
  have h1 : PairFree (reSub s.data) := reSub_pairFree s.data
  have h2 : PairFree (trimList (reSub s.data)) := pairFree_mono (trimList_sublist _) h1
  rw [reSub_of_pairFree h2, trimList_idem]

/-! ### C5, C6: grocery-list extraction and removal -/

theorem content_no_nl {d : Char} {tl : List Char} (hd : ¬ d = '\n') :
    '\n' ∉ d :: tl.takeWhile (· ≠ '\n') := by
  intro hmem
  rcases List.mem_cons.mp hmem with heq | hmem'
  · exact hd heq.symm
  · have := List.mem_takeWhile_imp hmem'
    simp at this

theorem itemsRunF_decomp : ∀ (fuel : Nat) (l : List Char), l.length ≤ fuel →
    l = (itemsRunF fuel l).1 ++ (itemsRunF fuel l).2
    ∧ ((itemsRunF fuel l).1 ≠ [] → ItemLines (itemsRunF fuel l).1) := by
  intro fuel
  induction fuel with
  | zero =>
    intro l _
    exact ⟨rfl, fun hne => absurd rfl hne⟩
  | succ f ih =>
    intro l hlen
    simp only [itemsRunF]
    split
    · next d tl =>
      split
      · next => exact ⟨rfl, fun hne => absurd rfl hne⟩
      · next hd =>
        split
        · next a2 heq2 =>
          have hsuf : '\n' :: a2 <:+ tl := by
            rw [← heq2]
            exact List.dropWhile_suffix _
          have hlen2 : a2.length ≤ f := by
            have hle := hsuf.length_le
            simp only [List.length_cons] at hle hlen
            omega
          obtain ⟨hiheq, hihIL⟩ := ih a2 hlen2
          constructor
          · show '-' :: ' ' :: d :: tl =
              (('-' :: ' ' :: (d :: tl.takeWhile (· ≠ '\n'))) ++ '\n' :: (itemsRunF f a2).1)
                ++ (itemsRunF f a2).2
            conv_lhs => rw [← List.takeWhile_append_dropWhile (· ≠ '\n') tl, heq2, hiheq]
            simp only [List.cons_append, List.append_assoc]
          · intro _
            show ItemLines (('-' :: ' ' :: (d :: tl.takeWhile (· ≠ '\n'))) ++ '\n' :: (itemsRunF f a2).1)
            by_cases hg : (itemsRunF f a2).1 = []
            · rw [hg]
              exact ItemLines.lastNL (d :: tl.takeWhile (· ≠ '\n')) (by simp) (content_no_nl hd)
            · exact ItemLines.cons (d :: tl.takeWhile (· ≠ '\n')) (itemsRunF f a2).1
                (by simp) (content_no_nl hd) (hihIL hg)
        · next hcatch =>
          constructor
          · show '-' :: ' ' :: d :: tl =
              ('-' :: ' ' :: (d :: tl.takeWhile (· ≠ '\n'))) ++ tl.dropWhile (· ≠ '\n')
            conv_lhs => rw [← List.takeWhile_append_dropWhile (· ≠ '\n') tl]
            simp [List.cons_append]
          · intro _
            exact ItemLines.last (d :: tl.takeWhile (· ≠ '\n')) (by simp) (content_no_nl hd)
    · next => exact ⟨rfl, fun hne => absurd rfl hne⟩

theorem itemsRunF_fst_ne_nil : ∀ (f : Nat) (d : Char) (tl : List Char), ¬ d = '\n' →
    0 < f → (itemsRunF f ('-' :: ' ' :: d :: tl)).1 ≠ [] := by
  intro f d tl hd hf
  cases f with
  | zero => omega
  | succ f' =>
    simp only [itemsRunF]
    rw [if_neg hd]
    split
    · simp
    · simp

theorem itemLines_start {bs : List Char} (h : ItemLines bs) :
    ∃ d btl, bs = '-' :: ' ' :: d :: btl ∧ ¬ d = '\n' := by
  cases h with
  | last c h1 h2 =>
    obtain ⟨d, t, rfl⟩ := List.exists_cons_of_ne_nil h1
    exact ⟨d, t, rfl, fun he => h2 (he ▸ List.mem_cons_self d t)⟩
  | lastNL c h1 h2 =>
    obtain ⟨d, t, rfl⟩ := List.exists_cons_of_ne_nil h1
    exact ⟨d, t ++ ['\n'], by simp, fun he => h2 (he ▸ List.mem_cons_self d t)⟩
  | cons c rest h1 h2 hr =>
    obtain ⟨d, t, rfl⟩ := List.exists_cons_of_ne_nil h1
    exact ⟨d, t ++ '\n' :: rest, by simp, fun he => h2 (he ▸ List.mem_cons_self d t)⟩

theorem itemLines_linesOf : ∀ (xs : List (List Char)), xs ≠ [] →
    (∀ x ∈ xs, x ≠ [] ∧ '\n' ∉ x) → ItemLines (linesOf xs) := by
  intro xs
  induction xs with
  | nil => intro h _; exact absurd rfl h
  | cons x xs' ih =>
    intro _ hcond
    obtain ⟨hxne, hxnl⟩ := hcond x (List.mem_cons_self x xs')
    cases xs' with
    | nil =>
      show ItemLines ('-' :: ' ' :: (x ++ '\n' :: linesOf []))
      exact ItemLines.lastNL x hxne hxnl
    | cons y ys =>
      have hIL := ih (by simp) (fun z hz => hcond z (List.mem_cons_of_mem x hz))
      show ItemLines ('-' :: ' ' :: (x ++ '\n' :: linesOf (y :: ys)))
      exact ItemLines.cons x (linesOf (y :: ys)) hxne hxnl hIL

theorem itemsRunF_linesOf : ∀ (xs : List (List Char)) (fuel : Nat),
    (∀ x ∈ xs, x ≠ [] ∧ '\n' ∉ x) → (linesOf xs).length ≤ fuel →
    itemsRunF fuel (linesOf xs) = (linesOf xs, []) := by
  intro xs
  induction xs with
  | nil =>
    intro fuel _ _
    cases fuel <;> rfl
  | cons x xs' ih =>
    intro fuel hcond hlen
    obtain ⟨hxne, hxnl⟩ := hcond x (List.mem_cons_self x xs')
    obtain ⟨d, xt, rfl⟩ := List.exists_cons_of_ne_nil hxne
    have hdnl : ¬ d = '\n' := fun he => hxnl (he ▸ List.mem_cons_self d xt)
    simp only [linesOf, List.cons_append, List.length_cons, List.length_append] at hlen ⊢
    cases fuel with
    | zero => omega
    | succ f =>
      simp only [itemsRunF]
      rw [if_neg hdnl]
      have hxt : ∀ a ∈ xt, (decide (a ≠ '\n')) = true := fun a ha =>
        decide_eq_true (fun he => hxnl (he ▸ List.mem_cons_of_mem d ha))
      have hnlf : (decide (('\n' : Char) ≠ '\n')) = false := by decide
      have htw : (xt ++ '\n' :: linesOf xs').takeWhile (· ≠ '\n') = xt := by
        rw [List.takeWhile_append_of_pos hxt, List.takeWhile_cons, hnlf]
        simp
      have hdw : (xt ++ '\n' :: linesOf xs').dropWhile (· ≠ '\n') = '\n' :: linesOf xs' := by
        rw [List.dropWhile_append_of_pos hxt, List.dropWhile_cons, hnlf]
        simp
      rw [htw, hdw]
      have hrec : itemsRunF f (linesOf xs') = (linesOf xs', []) := by
        apply ih f (fun z hz => hcond z (List.mem_cons_of_mem _ hz))
        omega
      show (('-' :: ' ' :: (d :: xt)) ++ '\n' :: (itemsRunF f (linesOf xs')).1,
        (itemsRunF f (linesOf xs')).2) = _
      rw [hrec]
      simp [List.cons_append]

theorem findallItemsF_linesOf : ∀ (xs : List (List Char)) (fuel : Nat),
    (∀ x ∈ xs, x ≠ [] ∧ '\n' ∉ x) → (linesOf xs).length ≤ fuel →
    findallItemsF fuel (linesOf xs) = xs := by
  intro xs
  induction xs with
  | nil =>
    intro fuel _ _
    cases fuel <;> rfl
  | cons x xs' ih =>
    intro fuel hcond hlen
    obtain ⟨hxne, hxnl⟩ := hcond x (List.mem_cons_self x xs')
    obtain ⟨d, xt, rfl⟩ := List.exists_cons_of_ne_nil hxne
    have hdnl : ¬ d = '\n' := fun he => hxnl (he ▸ List.mem_cons_self d xt)
    simp only [linesOf, List.cons_append, List.length_cons, List.length_append] at hlen ⊢
    cases fuel with
    | zero => omega
    | succ f =>
      simp only [findallItemsF]
      rw [if_neg hdnl]
      have hxt : ∀ a ∈ xt, (decide (a ≠ '\n')) = true := fun a ha =>
        decide_eq_true (fun he => hxnl (he ▸ List.mem_cons_of_mem d ha))
      have hnlf : (decide (('\n' : Char) ≠ '\n')) = false := by decide
      have htw : (xt ++ '\n' :: linesOf xs').takeWhile (· ≠ '\n') = xt := by
        rw [List.takeWhile_append_of_pos hxt, List.takeWhile_cons, hnlf]
        simp
      have hdw : (xt ++ '\n' :: linesOf xs').dropWhile (· ≠ '\n') = '\n' :: linesOf xs' := by
        rw [List.dropWhile_append_of_pos hxt, List.dropWhile_cons, hnlf]
        simp
      rw [htw, hdw]
      cases f with
      | zero => omega
      | succ f' =>
        have hskip : findallItemsF (f' + 1) ('\n' :: linesOf xs') =
            findallItemsF f' (linesOf xs') := by
          cases linesOf xs' <;> rfl
        rw [hskip, ih f' (fun z hz => hcond z (List.mem_cons_of_mem _ hz)) (by omega)]

theorem matchGrocery_parts (hs ws gl co nls bs rest : List Char)
    (hhs : hs ≠ []) (hall : ∀ c ∈ hs, c = '#')
    (hws : ∀ c ∈ ws, isWs c = true)
    (hgl : gl.map Char.toLower = GLlit)
    (hco : co = [] ∨ co = [':'])
    (hnls : nls ≠ []) (hnlsall : ∀ c ∈ nls, isNL c = true)
    (hbs : ItemLines bs) :
    matchGrocery (hs ++ (ws ++ (gl ++ (co ++ (nls ++ (bs ++ rest)))))) =
      some (itemsRunF (bs ++ rest).length (bs ++ rest)) := by
  obtain ⟨d, btl, hbseq, hdnl⟩ := itemLines_start hbs
  subst hbseq
  have hgl_len : gl.length = 12 := by
    have h1 := congrArg List.length hgl
    rw [List.length_map] at h1
    have h2 : GLlit.length = 12 := by decide
    omega
  obtain ⟨g0, gl', rfl⟩ : ∃ g0 gl', gl = g0 :: gl' := by
    cases gl with
    | nil => simp at hgl_len
    | cons a b => exact ⟨a, b, rfl⟩
  have hg0 : Char.toLower g0 = 'g' := by
    have h1 : (List.map Char.toLower (g0 :: gl')).head? = some 'g' := by
      rw [hgl]
      decide
    simp only [List.map_cons, List.head?_cons] at h1
    exact Option.some.inj h1
  have hg0ne : g0 ≠ '#' := fun he => by rw [he] at hg0; exact absurd hg0 (by decide)
  have hg0ws : isWs g0 = false := by
    cases hb : isWs g0
    · rfl
    · exfalso
      simp only [isWs, Bool.or_eq_true, beq_iff_eq] at hb
      rcases hb with ((((rfl | rfl) | rfl) | rfl) | rfl) | rfl <;> exact absurd hg0 (by decide)
  simp only [List.cons_append]
  simp only [matchGrocery]
  have hhs' : ∀ c ∈ hs, (decide (c = '#')) = true := fun c hc => decide_eq_true (hall c hc)
  have htk : (hs ++ (ws ++ (g0 :: (gl' ++ (co ++ (nls ++ ('-' :: ' ' :: d :: (btl ++ rest)))))))).takeWhile (· = '#') = hs := by
    rw [List.takeWhile_append_of_pos hhs']
    rcases ws with _ | ⟨w0, ws'⟩
    · simp only [List.nil_append]
      rw [List.takeWhile_cons]
      have hne2 : (decide (g0 = '#')) = false := by simp [hg0ne]
      rw [hne2]
      simp
    · rw [List.cons_append, List.takeWhile_cons]
      have hw0 : isWs w0 = true := hws w0 (List.mem_cons_self _ _)
      have hw0ne : w0 ≠ '#' := ne_of_pred_true_false hw0 (by decide)
      have hne2 : (decide (w0 = '#')) = false := by simp [hw0ne]
      rw [hne2]
      simp
  have hdk : (hs ++ (ws ++ (g0 :: (gl' ++ (co ++ (nls ++ ('-' :: ' ' :: d :: (btl ++ rest)))))))).dropWhile (· = '#') = ws ++ (g0 :: (gl' ++ (co ++ (nls ++ ('-' :: ' ' :: d :: (btl ++ rest)))))) := by
    rw [List.dropWhile_append_of_pos hhs']
    rcases ws with _ | ⟨w0, ws'⟩
    · simp only [List.nil_append]
      rw [List.dropWhile_cons]
      have hne2 : (decide (g0 = '#')) = false := by simp [hg0ne]
      rw [hne2]
      simp
    · rw [List.cons_append, List.dropWhile_cons]
      have hw0 : isWs w0 = true := hws w0 (List.mem_cons_self _ _)
      have hw0ne : w0 ≠ '#' := ne_of_pred_true_false hw0 (by decide)
      have hne2 : (decide (w0 = '#')) = false := by simp [hw0ne]
      rw [hne2]
      simp [List.cons_append]
  have hdw : (ws ++ (g0 :: (gl' ++ (co ++ (nls ++ ('-' :: ' ' :: d :: (btl ++ rest))))))).dropWhile isWs = g0 :: (gl' ++ (co ++ (nls ++ ('-' :: ' ' :: d :: (btl ++ rest))))) := by
    rw [List.dropWhile_append_of_pos hws, List.dropWhile_cons, hg0ws]
    simp
  rw [htk, if_neg hhs, hdk, hdw]
  have ht12 : (g0 :: (gl' ++ (co ++ (nls ++ ('-' :: ' ' :: d :: (btl ++ rest)))))).take 12 = g0 :: gl' := by
    have h12 : ((g0 :: gl') ++ (co ++ (nls ++ ('-' :: ' ' :: d :: (btl ++ rest))))).take 12 = g0 :: gl' :=
      List.take_left' hgl_len
    simpa [List.cons_append] using h12
  have hd12 : (g0 :: (gl' ++ (co ++ (nls ++ ('-' :: ' ' :: d :: (btl ++ rest)))))).drop 12 = co ++ (nls ++ ('-' :: ' ' :: d :: (btl ++ rest))) := by
    have h12 : ((g0 :: gl') ++ (co ++ (nls ++ ('-' :: ' ' :: d :: (btl ++ rest))))).drop 12 = co ++ (nls ++ ('-' :: ' ' :: d :: (btl ++ rest))) :=
      List.drop_left' hgl_len
    simpa [List.cons_append] using h12
  rw [ht12, if_pos hgl, hd12]
  obtain ⟨n0, nls', rfl⟩ := List.exists_cons_of_ne_nil hnls
  have hn0 : isNL n0 = true := hnlsall n0 (List.mem_cons_self _ _)
  have hn0c : n0 ≠ ':' := ne_of_pred_true_false hn0 (by decide)
  have htnl : ((n0 :: nls') ++ ('-' :: ' ' :: d :: (btl ++ rest))).takeWhile isNL = n0 :: nls' := by
    rw [List.takeWhile_append_of_pos hnlsall, List.takeWhile_cons]
    have hnlm : isNL '-' = false := by decide
    rw [hnlm]
    simp
  have hdnl2 : ((n0 :: nls') ++ ('-' :: ' ' :: d :: (btl ++ rest))).dropWhile isNL = '-' :: ' ' :: d :: (btl ++ rest) := by
    rw [List.dropWhile_append_of_pos hnlsall, List.dropWhile_cons]
    have hnlm : isNL '-' = false := by decide
    rw [hnlm]
    simp
  simp only [List.cons_append] at htnl hdnl2
  have hfin : (itemsRunF ('-' :: ' ' :: d :: (btl ++ rest)).length ('-' :: ' ' :: d :: (btl ++ rest))).1 ≠ [] :=
    itemsRunF_fst_ne_nil _ d _ hdnl (by simp)
  rcases hco with rfl | rfl
  · simp only [List.nil_append, List.cons_append]
    have hcond : ¬ ((n0 :: (nls' ++ ('-' :: ' ' :: d :: (btl ++ rest)))).head? = some ':') := by
      simp [hn0c]
    rw [if_neg hcond, htnl, if_neg (List.cons_ne_nil n0 nls'), hdnl2, if_neg hfin]
  · simp only [List.cons_append, List.nil_append]
    have hcond : ((':' :: (n0 :: (nls' ++ ('-' :: ' ' :: d :: (btl ++ rest))))).head? = some ':') := rfl
    rw [if_pos hcond, List.tail_cons, htnl, if_neg (List.cons_ne_nil n0 nls'), hdnl2, if_neg hfin]

theorem matchGrocery_some_shape {l : List Char} {p : List Char × List Char}
    (h : matchGrocery l = some p) : ShapeAt l := by
  simp only [matchGrocery] at h
  set hsv := l.takeWhile (· = '#') with hhs_def
  set r2 := (l.dropWhile (· = '#')).dropWhile isWs with hr2_def
  set r3 := r2.drop 12 with hr3_def
  set r4 := (if r3.head? = some ':' then r3.tail else r3) with hr4_def
  set nlsv := r4.takeWhile isNL with hnls_def
  set r5 := r4.dropWhile isNL with hr5_def
  set P := itemsRunF r5.length r5 with hP_def
  by_cases hhs : hsv = []
  · rw [if_pos hhs] at h; cases h
  rw [if_neg hhs] at h
  by_cases hgl : (r2.take 12).map Char.toLower = GLlit
  swap
  · rw [if_neg hgl] at h; cases h
  rw [if_pos hgl] at h
  by_cases hnl : nlsv = []
  · rw [if_pos hnl] at h; cases h
  rw [if_neg hnl] at h
  by_cases hp1 : P.1 = []
  · rw [if_pos hp1] at h; cases h
  obtain ⟨hdec, hIL⟩ := itemsRunF_decomp r5.length r5 le_rfl
  rw [← hP_def] at hdec hIL
  have e1 : l = hsv ++ l.dropWhile (· = '#') := by
    rw [hhs_def]
    exact (List.takeWhile_append_dropWhile _ _).symm
  have e2 : l.dropWhile (· = '#') = (l.dropWhile (· = '#')).takeWhile isWs ++ r2 := by
    rw [hr2_def]
    exact (List.takeWhile_append_dropWhile _ _).symm
  have e3 : r2 = r2.take 12 ++ r3 := by
    rw [hr3_def]
    exact (List.take_append_drop _ _).symm
  have e5 : r4 = nlsv ++ r5 := by
    rw [hnls_def, hr5_def]
    exact (List.takeWhile_append_dropWhile _ _).symm
  have hset1 : ∀ c ∈ hsv, c = '#' := by
    intro c hc
    rw [hhs_def] at hc
    have hc2 := List.mem_takeWhile_imp hc
    exact of_decide_eq_true hc2
  have hset2 : ∀ c ∈ (l.dropWhile (· = '#')).takeWhile isWs, isWs c = true := fun c hc =>
    List.mem_takeWhile_imp hc
  have hset3 : ∀ c ∈ nlsv, isNL c = true := by
    intro c hc
    rw [hnls_def] at hc
    exact List.mem_takeWhile_imp hc
  by_cases hcolon : r3.head? = some ':'
  · obtain ⟨t3, ht3⟩ : ∃ t3, r3 = ':' :: t3 := by
      cases hr3c : r3 with
      | nil => rw [hr3c] at hcolon; cases hcolon
      | cons a b => rw [hr3c] at hcolon; injection hcolon with h1; exact ⟨b, by rw [h1]⟩
    have hr4v : r4 = t3 := by rw [hr4_def, if_pos hcolon, ht3]; rfl
    have e4 : r3 = [':'] ++ r4 := by rw [ht3, hr4v]; rfl
    refine ⟨hsv, (l.dropWhile (· = '#')).takeWhile isWs, r2.take 12, [':'], nlsv, P.1, P.2,
      ?_, hhs, hset1, hset2, hgl, Or.inr rfl, hnl, hset3, hIL hp1⟩
    calc l = hsv ++ l.dropWhile (· = '#') := e1
      _ = hsv ++ ((l.dropWhile (· = '#')).takeWhile isWs ++ r2) := congrArg _ e2
      _ = hsv ++ ((l.dropWhile (· = '#')).takeWhile isWs ++ (r2.take 12 ++ r3)) := by
          exact congrArg (fun x => hsv ++ ((l.dropWhile (· = '#')).takeWhile isWs ++ x)) e3
      _ = hsv ++ ((l.dropWhile (· = '#')).takeWhile isWs ++ (r2.take 12 ++ ([':'] ++ r4))) := by
          exact congrArg (fun x => hsv ++ ((l.dropWhile (· = '#')).takeWhile isWs ++ (r2.take 12 ++ x))) e4
      _ = hsv ++ ((l.dropWhile (· = '#')).takeWhile isWs ++ (r2.take 12 ++ ([':'] ++ (nlsv ++ r5)))) := by
          exact congrArg (fun x => hsv ++ ((l.dropWhile (· = '#')).takeWhile isWs ++ (r2.take 12 ++ ([':'] ++ x)))) e5
      _ = hsv ++ ((l.dropWhile (· = '#')).takeWhile isWs ++ (r2.take 12 ++ ([':'] ++ (nlsv ++ (P.1 ++ P.2))))) := by
          exact congrArg (fun x => hsv ++ ((l.dropWhile (· = '#')).takeWhile isWs ++ (r2.take 12 ++ ([':'] ++ (nlsv ++ x))))) hdec
  · have hr4v : r4 = r3 := by rw [hr4_def, if_neg hcolon]
    have e4 : r3 = [] ++ r4 := by rw [hr4v]; rfl
    refine ⟨hsv, (l.dropWhile (· = '#')).takeWhile isWs, r2.take 12, [], nlsv, P.1, P.2,
      ?_, hhs, hset1, hset2, hgl, Or.inl rfl, hnl, hset3, hIL hp1⟩
    calc l = hsv ++ l.dropWhile (· = '#') := e1
      _ = hsv ++ ((l.dropWhile (· = '#')).takeWhile isWs ++ r2) := congrArg _ e2
      _ = hsv ++ ((l.dropWhile (· = '#')).takeWhile isWs ++ (r2.take 12 ++ r3)) := by
          exact congrArg (fun x => hsv ++ ((l.dropWhile (· = '#')).takeWhile isWs ++ x)) e3
      _ = hsv ++ ((l.dropWhile (· = '#')).takeWhile isWs ++ (r2.take 12 ++ ([] ++ r4))) := by
          exact congrArg (fun x => hsv ++ ((l.dropWhile (· = '#')).takeWhile isWs ++ (r2.take 12 ++ x))) e4
      _ = hsv ++ ((l.dropWhile (· = '#')).takeWhile isWs ++ (r2.take 12 ++ ([] ++ (nlsv ++ r5)))) := by
          exact congrArg (fun x => hsv ++ ((l.dropWhile (· = '#')).takeWhile isWs ++ (r2.take 12 ++ ([] ++ x)))) e5
      _ = hsv ++ ((l.dropWhile (· = '#')).takeWhile isWs ++ (r2.take 12 ++ ([] ++ (nlsv ++ (P.1 ++ P.2))))) := by
          exact congrArg (fun x => hsv ++ ((l.dropWhile (· = '#')).takeWhile isWs ++ (r2.take 12 ++ ([] ++ (nlsv ++ x))))) hdec

theorem matchGrocery_nil : matchGrocery [] = none := by decide

theorem matchGrocery_head {c : Char} {cs : List Char} (h : c ≠ '#') :
    matchGrocery (c :: cs) = none := by
  have hdec : (decide (c = '#')) = false := by simp [h]
  have ht : (c :: cs).takeWhile (· = '#') = [] := by
    rw [List.takeWhile_cons, hdec]
    simp
  simp only [matchGrocery]
  rw [ht]
  rfl

theorem matchGrocery_of_shape {l : List Char} (h : ShapeAt l) :
    ∃ p, matchGrocery l = some p := by
  obtain ⟨hs, ws, gl, co, nls, bs, rest, rfl, hhs, hall, hws, hgl, hco, hnls, hnlsall, hbs⟩ := h
  exact ⟨_, matchGrocery_parts hs ws gl co nls bs rest hhs hall hws hgl hco hnls hnlsall hbs⟩

theorem extractGrocery_isSome_iff (t : String) :
    (extractGrocery t).isSome ↔ ∃ i, ShapeAt (t.data.drop i) := by
  unfold extractGrocery
  rw [Option.isSome_map']
  constructor
  · intro h
    obtain ⟨p, hp⟩ := Option.isSome_iff_exists.mp h
    obtain ⟨i, hi, -⟩ := (scanFirst_eq_some_iff matchGrocery_nil).mp hp
    exact ⟨i, matchGrocery_some_shape hi⟩
  · rintro ⟨i, hshape⟩
    by_contra hcon
    rw [Option.not_isSome_iff_eq_none] at hcon
    have hnone := (scanFirst_eq_none_iff matchGrocery_nil).mp hcon
    obtain ⟨p, hp⟩ := matchGrocery_of_shape hshape
    rw [hnone i] at hp
    cases hp

theorem scanFirst_append_skip {α : Type} {m : List Char → Option α} :
    ∀ (a b : List Char),
      (∀ a', a' ≠ [] → a' <:+ a → m (a' ++ b) = none) →
      scanFirst m (a ++ b) = scanFirst m b := by
  intro a
  induction a with
  | nil => intro b _; rfl
  | cons c a' ih =>
    intro b h
    have h0 : m ((c :: a') ++ b) = none := h (c :: a') (by simp) (List.suffix_refl _)
    simp only [List.cons_append] at h0
    show scanFirst m (c :: (a' ++ b)) = _
    simp only [scanFirst, h0]
    exact ih b (fun a'' hne hsuf => h a'' hne (hsuf.trans (List.suffix_cons c a')))

theorem extractGrocery_canonical :
    ∀ (pre hsl : List Char) (xs : List (List Char)),
      '#' ∉ pre → hsl ≠ [] → (∀ c ∈ hsl, c = '#') → xs ≠ [] →
      (∀ x ∈ xs, x ≠ [] ∧ '\n' ∉ x) →
      extractGrocery ⟨pre ++ (hsl ++ (" Grocery List\n".data ++ linesOf xs))⟩ =
        some (xs.map fun x => (⟨x⟩ : String)) := by
  intro pre hsl xs hpre hne hall hxs hcond
  have hblock : matchGrocery (hsl ++ (" Grocery List\n".data ++ linesOf xs))
      = some (linesOf xs, []) := by
    have hparts := matchGrocery_parts hsl [' '] ("Grocery List".data) [] ['\n'] (linesOf xs) []
      hne hall (by decide) (by decide) (Or.inl rfl) (by decide) (by decide)
      (itemLines_linesOf xs hxs hcond)
    rw [List.append_nil] at hparts
    rw [itemsRunF_linesOf xs _ hcond le_rfl] at hparts
    have harg : ([' '] : List Char) ++ ("Grocery List".data ++ ([] ++ (['\n'] ++ linesOf xs)))
        = " Grocery List\n".data ++ linesOf xs := by
      have hlit : " Grocery List\n".data = ' ' :: ("Grocery List".data ++ ['\n']) := by decide
      rw [hlit]
      simp [List.cons_append, List.append_assoc]
    rw [harg] at hparts
    exact hparts
  have hskipc : ∀ a', a' ≠ [] → a' <:+ pre →
      matchGrocery (a' ++ (hsl ++ (" Grocery List\n".data ++ linesOf xs))) = none := by
    intro a' hne' hsuf
    obtain ⟨d, t, rfl⟩ : ∃ d t, a' = d :: t := by
      cases a' with
      | nil => exact absurd rfl hne'
      | cons d t => exact ⟨d, t, rfl⟩
    have hdmem : d ∈ pre := hsuf.sublist.subset (List.mem_cons_self d t)
    have hdne : d ≠ '#' := fun he => hpre (he ▸ hdmem)
    show matchGrocery (d :: (t ++ (hsl ++ (" Grocery List\n".data ++ linesOf xs)))) = none
    exact matchGrocery_head hdne
  show (scanFirst matchGrocery (pre ++ (hsl ++ (" Grocery List\n".data ++ linesOf xs)))).map
      (fun p => (findallItemsF p.1.length p.1).map fun cs => (⟨cs⟩ : String)) = _
  rw [scanFirst_append_skip pre _ hskipc]
  obtain ⟨h0, hsl', rfl⟩ := List.exists_cons_of_ne_nil hne
  simp only [List.cons_append] at hblock ⊢
  simp only [scanFirst, hblock]
  simp only [Option.map_some']
  show some ((findallItemsF (linesOf xs).length (linesOf xs)).map fun cs => (⟨cs⟩ : String)) = _
  rw [findallItemsF_linesOf xs _ hcond le_rfl]

/-- C5: extraction succeeds exactly when some position of the text starts
a grocery-block shape: a nonempty `#` run, whitespace (Python `\s`, which
includes line breaks), the words `Grocery List` up to ASCII case, an
optional colon, a nonempty run of line breaks, then one or more lines each
beginning with `- ` and nonempty content.  On a canonical block it returns
exactly the item lines, in order, with the leading `- ` stripped.  The two
worked examples from the spec are the last conjuncts. -/
theorem grocery_extraction_spec :
    (∀ t : String, (extractGrocery t).isSome ↔ ∃ i, ShapeAt (t.data.drop i))
    ∧ (∀ (pre hsl : List Char) (xs : List (List Char)),
        '#' ∉ pre → hsl ≠ [] → (∀ c ∈ hsl, c = '#') → xs ≠ [] →
        (∀ x ∈ xs, x ≠ [] ∧ '\n' ∉ x) →
        extractGrocery ⟨pre ++ (hsl ++ (" Grocery List\n".data ++ linesOf xs))⟩ =
          some (xs.map fun x => (⟨x⟩ : String)))
    ∧ extractGrocery "Here is your plan.\n### Grocery List\n- Milk (1 gallon)\n- Eggs (dozen)\n" =
        some ["Milk (1 gallon)", "Eggs (dozen)"]
    ∧ extractGrocery "no list here" = none :=
  ⟨extractGrocery_isSome_iff, extractGrocery_canonical, by decide, by decide⟩

/-- Witness for C5: the canonical-block clause applied at a concrete
prefix, header and item list. -/
theorem grocery_extraction_spec_witness :
    extractGrocery ⟨"Intro\n".data ++ ("###".data ++ (" Grocery List\n".data ++ linesOf [['A'], ['B', 'C']]))⟩ =
      some [⟨['A']⟩, ⟨['B', 'C']⟩] :=
  grocery_extraction_spec.2.1 "Intro\n".data "###".data [['A'], ['B', 'C']]
    (by decide) (by decide) (by decide) (by decide) (by decide)

/-- C6 counterexample: on `tC6` extraction succeeds (items `["a"]`), but
removing the matched block splices the surrounding text into a fresh
grocery block, so re-running extraction on the narrative returns
`some ["b"]`, not the claimed not-found. -/
theorem removal_roundtrip_counterexample :
    extractGrocery tC6 = some ["a"]
    ∧ narrativeOf tC6 = "### Grocery List\n- b"
    ∧ extractGrocery (narrativeOf tC6) = some ["b"]
    ∧ ¬ (extractGrocery (narrativeOf tC6) = none) := by
  exact ⟨by decide, by decide, by decide, by decide⟩

/-- C6 amended: removal deletes every non-overlapping occurrence of the
grocery-block pattern from the original text, but deletion can splice the
remaining text into a new occurrence, so the round-trip is not universal;
it does hold whenever the stripped narrative contains no `#` character
(the pattern needs one). -/
theorem removal_roundtrip_amended :
    ∀ (t : String) (items : List String),
      extractGrocery t = some items →
      '#' ∉ (narrativeOf t).data →
      extractGrocery (narrativeOf t) = none := by
  intro t items _ hhash
  unfold extractGrocery
  have hnone : scanFirst matchGrocery (narrativeOf t).data = none := by
    rw [scanFirst_eq_none_iff matchGrocery_nil]
    intro i
    cases hd : (narrativeOf t).data.drop i with
    | nil => exact matchGrocery_nil
    | cons c cs =>
      have hmem0 : c ∈ (narrativeOf t).data.drop i := by
        rw [hd]
        exact List.mem_cons_self c cs
      have hmem : c ∈ (narrativeOf t).data := List.drop_subset _ _ hmem0
      have hcne : c ≠ '#' := fun he => hhash (he ▸ hmem)
      exact matchGrocery_head hcne
  rw [hnone]
  rfl

/-- Witness for C6's amended claim: a plan whose narrative has no `#`. -/
theorem removal_roundtrip_amended_witness :
    extractGrocery "A\n### Grocery List\n- X\n" = some ["X"]
      ∧ extractGrocery (narrativeOf "A\n### Grocery List\n- X\n") = none :=
  ⟨by decide,
   removal_roundtrip_amended "A\n### Grocery List\n- X\n" ["X"] (by decide) (by decide)⟩

end MealPlanner
